import Mathlib

set_option maxRecDepth 100000

/-!
Shallow embedding of the k-nucleotide counting program, translated from
`src/knucleotide.rs` and `src/new.rs`: the symbol codec, the sliding-window
encoder, the chunk partitioner, the counting engine (full tabulation and
target counting), the reducer, and the query-ordering pipeline.

Conventions:
* bytes and 64-bit keys are `Nat` with explicit `% 2 ^ 64` where u64
  overflow matters; u32 counter updates reduce `% 2 ^ 32`;
* Rust release-mode shift semantics: the shift amount of `1u64 <<` is
  reduced modulo 64;
* a `HashMap<Seq, u32>` is an association list with unique keys
  (`lookupTbl` returns `none` exactly when the key is absent);
* fallible operations (slices `windows(0)` / `step_by(0)`, which panic,
  and the panicking `HashMap` index `counts[&key]`) return `Option`,
  with `none` modelling the panic;
* rayon's `reduce(HashMap::default, merge)` is modelled as a sequential
  left fold with `merge`, and spawned threads as plain values joined in
  pool order, which is what the join loops in `show` / `print_counts` do.
-/

/-- `(byte >> 1) & 0b11`: the 2-bit symbol code computed inside both
`Seq::push` (knucleotide.rs) and `Nucleotide::push_byte` (new.rs). -/
def byteCode (b : Nat) : Nat := (b >>> 1) &&& 3

/-- `Seq::push` from knucleotide.rs:
`hash_key = ((hash_key << 2) | ((byte >> 1) & 0b11)) & ((1u64 << (2 * seq_len)) - 1)`
on a u64 `hash_key`. -/
def Seq.push (key byte seq_len : Nat) : Nat :=
  ((key <<< 2) % 2 ^ 64 ||| byteCode byte) &&& (1 <<< (2 * seq_len % 64) - 1)

/-- The `NUCLEOTIDES` display table, common to both variants. -/
def NUCLEOTIDES : List Char := ['A', 'C', 'T', 'G']

/-- `NUCLEOTIDES[i]`; every index used by `to_str` is `< 4`. -/
def nucleotideChar (i : Nat) : Char := NUCLEOTIDES.getD i 'A'

/-- `Seq::to_str` from knucleotide.rs: extract 2-bit groups from index
`seq_len - 1` down to `0` and map through `NUCLEOTIDES`. -/
def Seq.to_str (key seq_len : Nat) : List Char :=
  (List.range seq_len).reverse.map fun i => nucleotideChar ((key >>> (2 * i)) &&& 3)

/-- `Seq::from_str` from knucleotide.rs: push every byte of the string,
with `seq_len` fixed to the string's length. -/
def Seq.from_str (s : List Char) : Nat :=
  s.foldl (fun key c => Seq.push key c.toNat s.length) 0

/-- `Nucleotide::push_byte` from new.rs:
`key <<= 2; key |= (byte >> 1) & 0b11; key &= (1u64 << (2 * nucleotide_len)) - 1`. -/
def Nucleotide.push_byte (key byte nucleotide_len : Nat) : Nat :=
  ((key <<< 2) % 2 ^ 64 ||| byteCode byte) &&& (1 <<< (2 * nucleotide_len % 64) - 1)

/-- `Nucleotide::from` from new.rs (`from` is a Lean keyword, hence `fromStr`). -/
def Nucleotide.fromStr (s : List Char) : Nat :=
  s.foldl (fun key c => Nucleotide.push_byte key c.toNat s.length) 0

/-- The key sequence yielded by `impl Iterator for KNucleotides`
(knucleotide.rs): one key per remaining byte, each obtained by pushing
that byte onto the running key and yielding the result. -/
def knKeys (seq_len key : Nat) : List Nat → List Nat
  | [] => []
  | b :: rest =>
    Seq.push key b seq_len :: knKeys seq_len (Seq.push key b seq_len) rest

/-- `k_nucleotides(seq_len, genome)`: the iterator starts from
`Seq::default()`, i.e. key 0. -/
def k_nucleotides (seq_len : Nat) (genome : List Nat) : List Nat :=
  knKeys seq_len 0 genome

/-- The key sequence yielded by `impl Iterator for GenomeIter` (new.rs). -/
def genomeIterKeys (nucleotide_len key : Nat) : List Nat → List Nat
  | [] => []
  | b :: rest =>
    Nucleotide.push_byte key b nucleotide_len ::
      genomeIterKeys nucleotide_len (Nucleotide.push_byte key b nucleotide_len) rest

/-- `build_genome_iter` from new.rs: fold the first `nucleotide_len - 1`
bytes into the key as warm-up, then yield one key per remaining byte. -/
def build_genome_iter (nucleotide_len : Nat) (genome : List Nat) : List Nat :=
  genomeIterKeys nucleotide_len
    ((genome.take (nucleotide_len - 1)).foldl
      (fun key b => Nucleotide.push_byte key b nucleotide_len) 0)
    (genome.drop (nucleotide_len - 1))

/-- A `HashMap<_, u32>` count table as an association list. -/
abbrev Tbl := List (Nat × Nat)

/-- `*table.entry(key).or_insert(0) += v`, with u32 wrap-around. -/
def bump : Tbl → Nat → Nat → Tbl
  | [], key, v => [(key, v % 2 ^ 32)]
  | (k, w) :: rest, key, v =>
    if k = key then (k, (w + v) % 2 ^ 32) :: rest else (k, w) :: bump rest key v

/-- `HashMap` lookup; `none` means the key is absent. -/
def lookupTbl : Tbl → Nat → Option Nat
  | [], _ => none
  | (k, v) :: rest, key => if k = key then some v else lookupTbl rest key

/-- `merge` from knucleotide.rs: fold `b`'s entries into `a`. -/
def merge (a b : Tbl) : Tbl := b.foldl (fun acc kv => bump acc kv.1 kv.2) a

/-- `inner_count_k` from knucleotide.rs: tabulate every key the
`KNucleotides` iterator yields over the chunk. -/
def inner_count_k (seq_len : Nat) (genome : List Nat) : Tbl :=
  (k_nucleotides seq_len genome).foldl (fun t key => bump t key 1) []

/-- `count_nucleotides` from new.rs: tabulate every key the warmed-up
`GenomeIter` yields. -/
def count_nucleotides (nucleotide_len : Nat) (genome : List Nat) : Tbl :=
  (build_genome_iter nucleotide_len genome).foldl (fun t key => bump t key 1) []

/-- `slice::windows(w)` for `w ≥ 1`: all contiguous sub-slices of length
`w`, at starts `0, 1, ..., len - w`. -/
def windowsList (w : Nat) (l : List Nat) : List (List Nat) :=
  (List.range (l.length + 1 - w)).map fun i => (l.drop i).take w

/-- `Iterator::step_by(s)` for `s ≥ 1`: the elements at indices
`0, s, 2*s, ...`, i.e. at every index that is a multiple of `s`. -/
def stepBy {α : Type} (s : Nat) (l : List α) : List α :=
  (List.range l.length).filterMap fun i => if i % s = 0 then l.get? i else none

/-- `chunks` from knucleotide.rs:
`bytes.windows(chunk_size + overlap).step_by(chunk_size)`.
`windows` panics when its argument is 0 and `step_by` panics when its
argument is 0; both happen exactly when `chunk_size = 0` (if
`chunk_size = 0` and `overlap > 0`, `windows` succeeds but `step_by(0)`
asserts), so that case is `none`. -/
def chunks (chunk_size overlap : Nat) (bytes : List Nat) : Option (List (List Nat)) :=
  if chunk_size = 0 then none
  else some (stepBy chunk_size (windowsList (chunk_size + overlap) bytes))

/-- `NUM_CHUNKS` from knucleotide.rs. -/
def NUM_CHUNKS : Nat := 64

/-- `count_k` from knucleotide.rs: partition, tabulate each chunk, reduce
with `merge` from the empty table. -/
def count_k (k : Nat) (genome : List Nat) : Option Tbl :=
  (chunks (genome.length / NUM_CHUNKS) (k - 1) genome).map
    fun cs => cs.foldl (fun acc c => merge acc (inner_count_k k c)) []

/-- `inner_count` from knucleotide.rs: count iterator keys equal to the
target key. -/
def inner_count (target_seq seq_len : Nat) (genome : List Nat) : Nat :=
  ((k_nucleotides seq_len genome).filter fun s => s == target_seq).length

/-- `par_count` from knucleotide.rs: partition, target-count each chunk,
sum, and return the pair (query string, count). -/
def par_count (seq_str : List Char) (seq_len : Nat) (genome : List Nat) :
    Option (List Char × Nat) :=
  (chunks (genome.length / NUM_CHUNKS) (seq_len - 1) genome).map
    fun cs => (seq_str, (cs.map fun c => inner_count (Seq.from_str seq_str) seq_len c).sum)

/-- The count printed by one `print_counts` line of new.rs:
`counts[&Nucleotide::from(s)]`. The `Index` impl panics when the key is
absent, modelled by `none`. -/
def query_count (s : List Char) (genome : List Nat) : Option Nat :=
  lookupTbl (count_nucleotides s.length genome) (Nucleotide.fromStr s)

/-- Stable insertion (ascending length) used to model Rust's stable
`sort_by(|l, r| l.len().cmp(&r.len()))`. -/
def insertByLen (s : String) : List String → List String
  | [] => [s]
  | t :: rest => if s.length ≤ t.length then s :: t :: rest else t :: insertByLen s rest

/-- `sort_by_len` from knucleotide.rs: stable ascending sort by string
length. -/
def sort_by_len (l : List String) : List String := l.foldr insertByLen []

/-- The query strings as listed in `main` (knucleotide.rs), source order. -/
def main_seq_strs : List String :=
  ["GGT", "GGTATTTTAATT", "GGTA", "GGTATTTTAATTTATAGT", "GGTATT"]

/-- `seqs` in `main`: the `str![...]` helper in lib.rs reverses its
arguments. -/
def seqs : List String := main_seq_strs.reverse

/-- The order in which `show` emits the query results: `count` spawns one
thread per string of `sort_by_len(seqs)` and `show` joins the pool in
that order. -/
def kn_query_order : List String := sort_by_len seqs

/-- `NUCLEOTIDE_STRS` from new.rs, source order. -/
def NUCLEOTIDE_STRS : List String :=
  ["GGTATTTTAATTTATAGT", "GGTATTTTAATT", "GGTATT", "GGTA", "GGT"]

/-- The order in which `print_counts` (new.rs) emits the query results:
threads are spawned in `NUCLEOTIDE_STRS` order and joined via
`.into_iter().rev()`. -/
def nv_query_order : List String := NUCLEOTIDE_STRS.reverse

/-! ### Helper lemmas -/

/-- The 2-bit code is always below 4, for every byte. -/
theorem byteCode_lt (b : Nat) : byteCode b < 4 := by
  have h : byteCode b ≤ 3 := Nat.and_le_right
  omega

/-- The two push operations are the same function. -/
theorem push_byte_eq_push : Nucleotide.push_byte = Seq.push := rfl

/-- Every `Seq::push` result is below `2 ^ (2 * seq_len)`: the mask keeps
only the low `2 * seq_len % 64` bits, and `2 * seq_len % 64 ≤ 2 * seq_len`. -/
theorem push_lt (key byte seq_len : Nat) : Seq.push key byte seq_len < 2 ^ (2 * seq_len) := by
  unfold Seq.push
  have h1 : ((key <<< 2) % 2 ^ 64 ||| byteCode byte) &&& (1 <<< (2 * seq_len % 64) - 1)
      ≤ 1 <<< (2 * seq_len % 64) - 1 := Nat.and_le_right
  have h2 : (1 : Nat) <<< (2 * seq_len % 64) = 2 ^ (2 * seq_len % 64) := by
    rw [Nat.shiftLeft_eq, one_mul]
  have h3 : (2 : Nat) ^ (2 * seq_len % 64) ≤ 2 ^ (2 * seq_len) :=
    Nat.pow_le_pow_right (by norm_num) (Nat.mod_le _ _)
  have h4 : 0 < (2 : Nat) ^ (2 * seq_len % 64) := Nat.pos_pow_of_pos _ (by norm_num)
  omega

/-- Folding pushes preserves the key bound. -/
theorem foldl_push_lt (k : Nat) :
    ∀ (bytes : List Nat) (key : Nat), key < 2 ^ (2 * k) →
      bytes.foldl (fun key b => Seq.push key b k) key < 2 ^ (2 * k) := by
  intro bytes
  induction bytes with
  | nil => intro key h; exact h
  | cons b rest ih => intro key _; exact ih _ (push_lt key b k)

/-- The `KNucleotides` iterator yields one key per byte. -/
theorem knKeys_length (k : Nat) :
    ∀ (l : List Nat) (key : Nat), (knKeys k key l).length = l.length := by
  intro l
  induction l with
  | nil => intro key; rfl
  | cons b rest ih => intro key; simp [knKeys, ih]

/-- The `GenomeIter` iterator yields one key per remaining byte. -/
theorem genomeIterKeys_length (k : Nat) :
    ∀ (l : List Nat) (key : Nat), (genomeIterKeys k key l).length = l.length := by
  intro l
  induction l with
  | nil => intro key; rfl
  | cons b rest ih => intro key; simp [genomeIterKeys, ih]

/-! ### C8 -/

/-- C8: for every window length `1 ≤ k ≤ 32` the Encoded Key invariant
holds and is preserved by every push: each single push lands below
`2 ^ (2 * k)` (for both `Seq::push` and `Nucleotide::push_byte`), the key
obtained from the all-zero key after any sequence of pushed bytes stays
below `2 ^ (2 * k)`, and all bits at positions `≥ 2 * k` (i.e. above bit
`2 * k - 1`) of that key are zero. -/
theorem push_key_invariant (k : Nat) (hk1 : 1 ≤ k) (hk2 : k ≤ 32) (bytes : List Nat) :
    (∀ key byte, Seq.push key byte k < 2 ^ (2 * k) ∧
      Nucleotide.push_byte key byte k < 2 ^ (2 * k)) ∧
    bytes.foldl (fun key b => Seq.push key b k) 0 < 2 ^ (2 * k) ∧
    ∀ i, 2 * k ≤ i → (bytes.foldl (fun key b => Seq.push key b k) 0).testBit i = false := by
  have hz : (0 : Nat) < 2 ^ (2 * k) := Nat.pos_pow_of_pos _ (by norm_num)
  have hfold : bytes.foldl (fun key b => Seq.push key b k) 0 < 2 ^ (2 * k) :=
    foldl_push_lt k bytes 0 hz
  refine ⟨fun key byte => ⟨push_lt key byte k, ?_⟩, hfold, fun i hi => ?_⟩
  · rw [push_byte_eq_push]; exact push_lt key byte k
  · exact Nat.testBit_lt_two_pow
      (Nat.lt_of_lt_of_le hfold (Nat.pow_le_pow_right (by norm_num) hi))

/-- Witness for C8 at `k = 2` and a concrete byte list. -/
theorem push_key_invariant_witness :
    1 ≤ 2 ∧ 2 ≤ 32 ∧
    ((∀ key byte, Seq.push key byte 2 < 2 ^ (2 * 2) ∧
        Nucleotide.push_byte key byte 2 < 2 ^ (2 * 2)) ∧
      [84, 71, 65].foldl (fun key b => Seq.push key b 2) 0 < 2 ^ (2 * 2) ∧
      ∀ i, 2 * 2 ≤ i → ([84, 71, 65].foldl (fun key b => Seq.push key b 2) 0).testBit i = false) :=
  ⟨by decide, by decide, push_key_invariant 2 (by decide) (by decide) [84, 71, 65]⟩

/-! ### C10 -/

/-- C10: the symbol encoding `(byte >> 1) & 0b11` is total over every byte
value (no error path), always producing one of the four 2-bit codes, and
the lowercase bytes `a`, `c`, `g`, `t` encode to the same codes as their
uppercase counterparts. -/
theorem codec_total (b : Nat) (hb : b < 256) :
    byteCode b < 4 ∧
    byteCode 'a'.toNat = byteCode 'A'.toNat ∧
    byteCode 'c'.toNat = byteCode 'C'.toNat ∧
    byteCode 'g'.toNat = byteCode 'G'.toNat ∧
    byteCode 't'.toNat = byteCode 'T'.toNat :=
  ⟨byteCode_lt b, by decide, by decide, by decide, by decide⟩

/-- Witness for C10 at byte 97 (`'a'`). -/
theorem codec_total_witness :
    97 < 256 ∧
    (byteCode 97 < 4 ∧
      byteCode 'a'.toNat = byteCode 'A'.toNat ∧
      byteCode 'c'.toNat = byteCode 'C'.toNat ∧
      byteCode 'g'.toNat = byteCode 'G'.toNat ∧
      byteCode 't'.toNat = byteCode 'T'.toNat) :=
  ⟨by decide, codec_total 97 (by decide)⟩

/-! ### C2 -/

/-- C2 counterexample: the `KNucleotides` scan (knucleotide.rs) of the
2-byte buffer `TT` with `k = 2` yields 2 keys, not `len - k + 1 = 1`:
it also yields the key of the incomplete 1-byte warm-up window. -/
theorem window_count_cx : (k_nucleotides 2 [84, 84]).length ≠ 2 - 2 + 1 := by decide

/-- C2 (amended): the warmed-up new.rs scan (`build_genome_iter`) yields
exactly `len - k + 1` keys when `len ≥ k` and none when `len < k`; the
knucleotide.rs scan (`KNucleotides`) instead yields one key for every
byte of the buffer, i.e. `len` keys. -/
theorem window_count (k : Nat) (g : List Nat) (hk : 1 ≤ k) :
    (build_genome_iter k g).length = (if k ≤ g.length then g.length - k + 1 else 0) ∧
    (k_nucleotides k g).length = g.length := by
  constructor
  · unfold build_genome_iter
    rw [genomeIterKeys_length, List.length_drop]
    split <;> omega
  · exact knKeys_length k g 0

/-- Witness for C2 at `k = 3` over a 4-byte buffer. -/
theorem window_count_witness :
    1 ≤ 3 ∧
    ((build_genome_iter 3 [84, 84, 84, 84]).length =
        (if 3 ≤ [84, 84, 84, 84].length then [84, 84, 84, 84].length - 3 + 1 else 0) ∧
      (k_nucleotides 3 [84, 84, 84, 84]).length = [84, 84, 84, 84].length) :=
  ⟨by decide, window_count 3 [84, 84, 84, 84] (by decide)⟩

/-! ### C1 -/

/-- C1 fails on the code: over the 129-byte buffer of `A`s with `k = 1`,
the chunked tabulation (`chunks` + `inner_count_k` + `merge`, as run by
`count_k`) records 128 occurrences of key 0, while the single
unpartitioned pass with the same engine (`inner_count_k` over the whole
buffer) records 129: `windows(2).step_by(2)` never covers the last byte. -/
theorem chunk_sum_cx :
    (count_k 1 (List.replicate 129 65)).map (fun t => lookupTbl t 0) = some (some 128) ∧
    lookupTbl (inner_count_k 1 (List.replicate 129 65)) 0 = some 129 := by
  constructor
  · decide
  · decide

/-! ### C9 -/

/-- C9 fails on the code: over the 128-byte buffer of `T`s with `k = 2`,
knucleotide.rs's `count_k` records 63 occurrences of the key of `AT`
(one bogus warm-up window per chunk) and 126 of `TT`, while new.rs's
`count_nucleotides` has no `AT` entry at all and 127 occurrences of `TT`;
the two variants' tables (and hence their rendered outputs) differ. -/
theorem variant_tables_cx :
    (count_k 2 (List.replicate 128 84)).map (fun t => lookupTbl t 2) = some (some 63) ∧
    lookupTbl (count_nucleotides 2 (List.replicate 128 84)) 2 = none ∧
    (count_k 2 (List.replicate 128 84)).map (fun t => lookupTbl t 10) = some (some 126) ∧
    lookupTbl (count_nucleotides 2 (List.replicate 128 84)) 10 = some 127 := by
  refine ⟨?_, ?_, ?_, ?_⟩ <;> decide

/-! ### C5 -/

/-- C5 fails on the code: on an empty buffer (and on any buffer shorter
than `NUM_CHUNKS = 64` bytes), `genome.len() / 64 = 0`, so both counting
operations reach `windows(...).step_by(0)` and panic (`none`) instead of
returning a zero/empty result. -/
theorem degenerate_input_panics :
    count_k 1 ([] : List Nat) = none ∧
    par_count ['G', 'G', 'T'] 3 ([] : List Nat) = none ∧
    count_k 1 (List.replicate 63 65) = none := by
  refine ⟨?_, ?_, ?_⟩ <;> decide

/-! ### C6 -/

/-- C6 fails on the code: over a 64-byte all-`A` buffer, the query `GGT`
occurs zero times; knucleotide.rs's `par_count` duly returns the pair
(query string, 0), but new.rs's `print_counts` indexes the tabulated
`HashMap` with the query's key, which is absent, so the `Index` impl
panics (`none`) instead of reporting 0. -/
theorem zero_occurrence_query :
    query_count ['G', 'G', 'T'] (List.replicate 64 65) = none ∧
    par_count ['G', 'G', 'T'] 3 (List.replicate 64 65) = some (['G', 'G', 'T'], 0) := by
  constructor
  · decide
  · decide

/-! ### C7 -/

/-- C7 counterexample: neither variant emits the five query results in
the order the queries were declared (`main`'s literal list for
knucleotide.rs, `NUCLEOTIDE_STRS` for new.rs). -/
theorem query_order_cx :
    kn_query_order ≠ main_seq_strs ∧ nv_query_order ≠ NUCLEOTIDE_STRS := by
  constructor
  · decide
  · decide

/-- C7 (amended): both variants emit the five query results in one fixed,
deterministic order — ascending query length (`GGT`, `GGTA`, `GGTATT`,
`GGTATTTTAATT`, `GGTATTTTAATTTATAGT`), the reverse of new.rs's
declaration order — because the result of each worker is joined in pool
order, independent of the workers' completion order. -/
theorem query_order_fixed :
    kn_query_order = ["GGT", "GGTA", "GGTATT", "GGTATTTTAATT", "GGTATTTTAATTTATAGT"] ∧
    nv_query_order = ["GGT", "GGTA", "GGTATT", "GGTATTTTAATT", "GGTATTTTAATTTATAGT"] := by
  constructor
  · decide
  · decide

/-! ### C3 -/

/-- C3 counterexample: at `k = 32` the mask `(1u64 << 64) - 1` degenerates
(the shift amount wraps to 0, so the mask is 0 and every key collapses to
0; in a debug build the shift panics instead), and the round-trip fails. -/
theorem roundtrip_cx :
    Seq.to_str (Seq.from_str (List.replicate 32 'C')) 32 ≠ List.replicate 32 'C' := by
  decide

/-- Base-4 accumulator: the mathematical value of a symbol string, the
ideal (unmasked) content of the sliding key. Proof-side abstraction. -/
def charValAux (n : Nat) (s : List Char) : Nat :=
  s.foldl (fun m c => 4 * m + byteCode c.toNat) n

/-- Spec-side digit decoding: most-significant base-4 digit first. -/
def digitsStr (key k : Nat) : List Char :=
  (List.range k).reverse.map fun i => nucleotideChar (key / 4 ^ i % 4)

/-- Or of a multiple of 4 with a 2-bit value is addition. -/
theorem four_mul_or (a b : Nat) (hb : b < 4) : 4 * a ||| b = 4 * a + b := by
  have h := Nat.mul_add_lt_is_or (i := 2) (b := b) (by omega) a
  norm_num at h
  omega

/-- For `seq_len ≤ 31`, `Seq::push` is plain base-4 accumulation modulo
`4 ^ seq_len`: no u64 wrap and no shift-amount wrap occurs. -/
theorem push_arith (k key b : Nat) (hk : k ≤ 31) :
    Seq.push key b k = (4 * key + byteCode b) % 4 ^ k := by
  unfold Seq.push
  have hm : 2 * k % 64 = 2 * k := Nat.mod_eq_of_lt (by omega)
  have hsl : key <<< 2 = key * 4 := Nat.shiftLeft_eq key 2
  have hmm : key * 4 % 2 ^ 64 = 4 * (key % 2 ^ 62) := by
    have h4 : (2 : Nat) ^ 64 = 4 * 2 ^ 62 := by norm_num
    rw [h4, Nat.mul_comm key 4, Nat.mul_mod_mul_left]
  have hone : (1 : Nat) <<< (2 * k) = 2 ^ (2 * k) := by
    rw [Nat.shiftLeft_eq, one_mul]
  have hpow : (2 : Nat) ^ (2 * k) = 4 ^ k := by
    rw [Nat.pow_mul]
  rw [hm, hsl, hmm, four_mul_or _ _ (byteCode_lt b), hone,
    Nat.and_pow_two_sub_one_eq_mod, hpow]
  have hmod : 4 * (key % 2 ^ 62) ≡ 4 * key [MOD 4 ^ k] := by
    have h1 : key % 2 ^ 62 ≡ key [MOD 2 ^ 62] := Nat.mod_modEq key (2 ^ 62)
    have h2 : 4 * (key % 2 ^ 62) ≡ 4 * key [MOD 4 * 2 ^ 62] := h1.mul_left' 4
    have h3 : (4 : Nat) ^ k ∣ 4 * 2 ^ 62 := by
      have h4 : (4 : Nat) * 2 ^ 62 = 4 ^ 32 := by norm_num
      rw [h4]
      exact pow_dvd_pow 4 (by omega)
    exact Nat.ModEq.of_dvd h3 h2
  exact hmod.add_right (byteCode b)

/-- Unfolding `charValAux` over a cons. -/
theorem charValAux_cons (n : Nat) (c : Char) (s : List Char) :
    charValAux n (c :: s) = charValAux (4 * n + byteCode c.toNat) s := rfl

/-- Appending a symbol multiplies the value by 4 and adds its code. -/
theorem charValAux_append (n : Nat) (s : List Char) (c : Char) :
    charValAux n (s ++ [c]) = 4 * charValAux n s + byteCode c.toNat := by
  unfold charValAux
  rw [List.foldl_append]
  rfl

/-- The accumulated value stays below `(n + 1) * 4 ^ len`. -/
theorem charValAux_lt : ∀ (s : List Char) (n : Nat),
    charValAux n s < (n + 1) * 4 ^ s.length := by
  intro s
  induction s with
  | nil =>
    intro n
    simp [charValAux]
  | cons c rest ih =>
    intro n
    rw [charValAux_cons, List.length_cons]
    calc charValAux (4 * n + byteCode c.toNat) rest
        < (4 * n + byteCode c.toNat + 1) * 4 ^ rest.length := ih _
      _ ≤ ((n + 1) * 4) * 4 ^ rest.length := by
          have hc := byteCode_lt c.toNat
          exact Nat.mul_le_mul_right _ (by omega)
      _ = (n + 1) * 4 ^ (rest.length + 1) := by
          rw [pow_succ]
          ring

/-- `charValAux` is congruent modulo `M` in its accumulator. -/
theorem charValAux_congr (M : Nat) : ∀ (s : List Char) (a b : Nat),
    a ≡ b [MOD M] → charValAux a s ≡ charValAux b s [MOD M] := by
  intro s
  induction s with
  | nil => intro a b h; exact h
  | cons c rest ih =>
    intro a b h
    rw [charValAux_cons, charValAux_cons]
    exact ih _ _ ((h.mul_left 4).add_right _)

/-- Folding pushes with `seq_len = k ≤ 31` computes the base-4 value
modulo `4 ^ k`. -/
theorem foldl_push_mod (k : Nat) (hk : k ≤ 31) :
    ∀ (s : List Char) (n : Nat), n < 4 ^ k →
      s.foldl (fun key c => Seq.push key c.toNat k) n = charValAux n s % 4 ^ k := by
  intro s
  induction s with
  | nil =>
    intro n hn
    simp [charValAux]
    exact (Nat.mod_eq_of_lt hn).symm
  | cons c rest ih =>
    intro n hn
    rw [List.foldl_cons, push_arith k n c.toNat hk,
      ih _ (Nat.mod_lt _ (pow_pos (by norm_num) k)), charValAux_cons]
    exact charValAux_congr (4 ^ k) rest _ _ (Nat.mod_modEq _ _)

/-- `Seq::from_str` of a string of length `≤ 31` is its exact base-4
value: the mask never truncates. -/
theorem from_str_eq_val (s : List Char) (hk : s.length ≤ 31) :
    Seq.from_str s = charValAux 0 s := by
  unfold Seq.from_str
  rw [foldl_push_mod s.length hk s 0 (pow_pos (by norm_num) _)]
  refine Nat.mod_eq_of_lt ?_
  have h := charValAux_lt s 0
  simpa using h

/-- `Seq::to_str` in base-4-digit form. -/
theorem to_str_eq_digitsStr (key k : Nat) : Seq.to_str key k = digitsStr key k := by
  unfold Seq.to_str digitsStr
  congr 1
  funext i
  congr 1
  rw [Nat.shiftRight_eq_div_pow]
  have h3 : (3 : Nat) = 2 ^ 2 - 1 := by norm_num
  rw [h3, Nat.and_pow_two_sub_one_eq_mod, Nat.pow_mul]

/-- Peeling the least-significant digit off `digitsStr`. -/
theorem digitsStr_succ (key k : Nat) :
    digitsStr key (k + 1) = digitsStr (key / 4) k ++ [nucleotideChar (key % 4)] := by
  unfold digitsStr
  rw [List.range_succ_eq_map, List.reverse_cons, List.map_append, ← List.map_reverse,
    List.map_map]
  congr 1
  · congr 1
    funext i
    show nucleotideChar (key / 4 ^ (i + 1) % 4) = nucleotideChar (key / 4 / 4 ^ i % 4)
    congr 2
    rw [Nat.div_div_eq_div_mul, Nat.pow_succ']
  · show [nucleotideChar (key / 4 ^ 0 % 4)] = [nucleotideChar (key % 4)]
    norm_num

/-- Decoding a valid symbol's code gives the symbol back. -/
theorem valid_char_decode : ∀ c ∈ NUCLEOTIDES, nucleotideChar (byteCode c.toNat) = c := by
  decide

/-- Digit decoding inverts base-4 accumulation on valid strings. -/
theorem digits_roundtrip : ∀ (s : List Char), (∀ c ∈ s, c ∈ NUCLEOTIDES) →
    digitsStr (charValAux 0 s) s.length = s := by
  intro s
  induction s using List.reverseRecOn with
  | nil => intro _; rfl
  | append_singleton s c ih =>
    intro hv
    have hlen : (s ++ [c]).length = s.length + 1 := by simp
    rw [charValAux_append, hlen, digitsStr_succ]
    have hc := byteCode_lt c.toNat
    have hdiv : (4 * charValAux 0 s + byteCode c.toNat) / 4 = charValAux 0 s := by omega
    have hmod : (4 * charValAux 0 s + byteCode c.toNat) % 4 = byteCode c.toNat := by omega
    rw [hdiv, hmod, ih (fun x hx => hv x (List.mem_append_left _ hx)),
      valid_char_decode c (hv c (by simp))]

/-- C3 (amended): the symbol codec round-trips on the four valid symbols,
and for every window length `1 ≤ k ≤ 31` and `k`-length string over the
valid alphabet, `Seq::to_str (Seq::from_str s) k = s`; consequently two
Encoded Keys built from valid `k`-length strings are equal iff the
strings are identical. (At `k = 32` the mask computation `1u64 << 64`
overflows and the round-trip fails, see the counterexample.) -/
theorem codec_roundtrip (k : Nat) (s : List Char) (hk1 : 1 ≤ k) (hk2 : k ≤ 31)
    (hlen : s.length = k) (hval : ∀ c ∈ s, c ∈ NUCLEOTIDES) :
    (∀ c ∈ NUCLEOTIDES, nucleotideChar (byteCode c.toNat) = c) ∧
    Seq.to_str (Seq.from_str s) k = s ∧
    ∀ t : List Char, t.length = k → (∀ c ∈ t, c ∈ NUCLEOTIDES) →
      (Seq.from_str s = Seq.from_str t ↔ s = t) := by
  have hrt : ∀ u : List Char, u.length = k → (∀ c ∈ u, c ∈ NUCLEOTIDES) →
      Seq.to_str (Seq.from_str u) k = u := by
    intro u hu huv
    rw [from_str_eq_val u (by omega), to_str_eq_digitsStr, ← hu,
      digits_roundtrip u huv]
  refine ⟨valid_char_decode, hrt s hlen hval, fun t ht htv => ⟨fun h => ?_, fun h => by rw [h]⟩⟩
  have h1 := hrt s hlen hval
  have h2 := hrt t ht htv
  rw [← h1, ← h2, h]

/-- Witness for C3 at `k = 3`, `s = GGT`. -/
theorem codec_roundtrip_witness :
    1 ≤ 3 ∧ 3 ≤ 31 ∧ (['G', 'G', 'T'] : List Char).length = 3 ∧
    (∀ c ∈ (['G', 'G', 'T'] : List Char), c ∈ NUCLEOTIDES) ∧
    ((∀ c ∈ NUCLEOTIDES, nucleotideChar (byteCode c.toNat) = c) ∧
      Seq.to_str (Seq.from_str ['G', 'G', 'T']) 3 = ['G', 'G', 'T'] ∧
      ∀ t : List Char, t.length = 3 → (∀ c ∈ t, c ∈ NUCLEOTIDES) →
        (Seq.from_str ['G', 'G', 'T'] = Seq.from_str t ↔ ['G', 'G', 'T'] = t)) :=
  ⟨by decide, by decide, by decide, by decide,
    codec_roundtrip 3 ['G', 'G', 'T'] (by decide) (by decide) (by decide) (by decide)⟩


/-! ### C4 -/

/-- The keys of a table. -/
def keysOf (t : Tbl) : List Nat := t.map Prod.fst

/-- The `HashMap` representation invariant: keys are unique and every
stored counter is a u32 value. -/
def WFTbl (t : Tbl) : Prop :=
  (keysOf t).Nodup ∧ ∀ kv ∈ t, kv.2 < 2 ^ 32

instance (t : Tbl) : Decidable (WFTbl t) := by
  unfold WFTbl
  infer_instance

/-- Modelled from the spec: combining two optional counts, a key absent
from both sides stays absent, otherwise the counts are summed (an absent
side contributing 0), as u32 addition. -/
def mergeLookup : Option Nat → Option Nat → Option Nat
  | none, none => none
  | some a, none => some a
  | none, some b => some b
  | some a, some b => some ((a + b) % 2 ^ 32)

theorem keysOf_nil : keysOf [] = [] := rfl

theorem keysOf_cons (k1 v1 : Nat) (rest : Tbl) :
    keysOf ((k1, v1) :: rest) = k1 :: keysOf rest := rfl

/-- What `bump` does to a lookup. -/
theorem lookup_bump (k0 v : Nat) : ∀ (t : Tbl) (key : Nat),
    lookupTbl (bump t k0 v) key =
      if key = k0 then
        some (match lookupTbl t k0 with
          | none => v % 2 ^ 32
          | some a => (a + v) % 2 ^ 32)
      else lookupTbl t key := by
  intro t
  induction t with
  | nil =>
    intro key
    by_cases h : key = k0
    · subst h; simp [bump, lookupTbl]
    · simp [bump, lookupTbl, h, Ne.symm h]
  | cons kv rest ih =>
    obtain ⟨k1, v1⟩ := kv
    intro key
    by_cases h1 : k1 = k0
    · subst h1
      by_cases h2 : k1 = key
      · subst h2; simp [bump, lookupTbl]
      · simp [bump, lookupTbl, h2, Ne.symm h2]
    · by_cases h2 : k1 = key
      · subst h2
        simp [bump, lookupTbl, h1, ih]
      · by_cases h3 : key = k0
        · subst h3
          simp [bump, lookupTbl, h1, h2, ih]
        · simp [bump, lookupTbl, h1, h2, h3, ih]

/-- What `bump` does to the key list. -/
theorem keysOf_bump (k0 v : Nat) : ∀ (t : Tbl),
    keysOf (bump t k0 v) =
      if k0 ∈ keysOf t then keysOf t else keysOf t ++ [k0] := by
  intro t
  induction t with
  | nil => simp [bump, keysOf]
  | cons kv rest ih =>
    obtain ⟨k1, v1⟩ := kv
    by_cases h1 : k1 = k0
    · subst h1
      simp [bump, keysOf_cons]
    · rw [keysOf_cons]
      by_cases h2 : k0 ∈ keysOf rest
      · simp [bump, h1, keysOf_cons, ih, h2]
      · simp [bump, h1, keysOf_cons, ih, h2, Ne.symm h1]

/-- `bump` preserves key uniqueness. -/
theorem nodup_bump (t : Tbl) (k0 v : Nat) (h : (keysOf t).Nodup) :
    (keysOf (bump t k0 v)).Nodup := by
  rw [keysOf_bump]
  by_cases h2 : k0 ∈ keysOf t
  · rw [if_pos h2]; exact h
  · rw [if_neg h2]
    simp [List.nodup_append, h, h2]

/-- `bump` preserves the u32 bound on stored counters. -/
theorem values_bump (k0 v : Nat) : ∀ (t : Tbl), (∀ kv ∈ t, kv.2 < 2 ^ 32) →
    ∀ kv ∈ bump t k0 v, kv.2 < 2 ^ 32 := by
  intro t
  induction t with
  | nil =>
    intro _ kv hkv
    simp only [bump, List.mem_singleton] at hkv
    subst hkv
    exact Nat.mod_lt _ (by norm_num)
  | cons kv0 rest ih =>
    obtain ⟨k1, v1⟩ := kv0
    intro h kv hkv
    simp only [bump] at hkv
    by_cases h1 : k1 = k0
    · rw [if_pos h1] at hkv
      rcases List.mem_cons.mp hkv with hkv | hkv
      · subst hkv; exact Nat.mod_lt _ (by norm_num)
      · exact h kv (List.mem_cons_of_mem _ hkv)
    · rw [if_neg h1] at hkv
      rcases List.mem_cons.mp hkv with hkv | hkv
      · subst hkv; exact h (k1, v1) (List.mem_cons_self _ _)
      · exact ih (fun x hx => h x (List.mem_cons_of_mem _ hx)) kv hkv

/-- An absent key looks up to `none`. -/
theorem lookup_eq_none (key : Nat) : ∀ (t : Tbl), key ∉ keysOf t →
    lookupTbl t key = none := by
  intro t
  induction t with
  | nil => intro _; rfl
  | cons kv rest ih =>
    obtain ⟨k1, v1⟩ := kv
    intro h
    rw [keysOf_cons, List.mem_cons] at h
    push_neg at h
    have hne : ¬ k1 = key := fun hc => h.1 hc.symm
    simp only [lookupTbl, if_neg hne]
    exact ih h.2

/-- Merging then looking up equals combining the two lookups, provided
the folded-in table has unique keys and u32 values. -/
theorem lookup_merge : ∀ (b a : Tbl), (keysOf b).Nodup → (∀ kv ∈ b, kv.2 < 2 ^ 32) →
    ∀ key, lookupTbl (merge a b) key =
      mergeLookup (lookupTbl a key) (lookupTbl b key) := by
  intro b
  induction b with
  | nil =>
    intro a _ _ key
    cases h : lookupTbl a key <;> simp [merge, mergeLookup, h, lookupTbl]
  | cons kv rest ih =>
    obtain ⟨bk, bv⟩ := kv
    intro a hnd hv key
    rw [keysOf_cons, List.nodup_cons] at hnd
    have hstep : merge a ((bk, bv) :: rest) = merge (bump a bk bv) rest := rfl
    rw [hstep, ih (bump a bk bv) hnd.2 (fun kv hkv => hv kv (List.mem_cons_of_mem _ hkv)) key,
      lookup_bump]
    by_cases h : key = bk
    · subst h
      rw [if_pos rfl, lookup_eq_none key rest hnd.1]
      have hbv : bv < 2 ^ 32 := hv (key, bv) (List.mem_cons_self _ _)
      have hbv2 : bv % 2 ^ 32 = bv := Nat.mod_eq_of_lt hbv
      cases ha : lookupTbl a key with
      | none =>
        simp [lookupTbl, mergeLookup, ha, hbv2]
        omega
      | some x => simp [lookupTbl, mergeLookup, ha]
    · rw [if_neg h]
      have hne : ¬ bk = key := fun hc => h hc.symm
      simp only [lookupTbl, if_neg hne]

/-- `merge` preserves key uniqueness of the accumulator. -/
theorem nodup_merge : ∀ (b a : Tbl), (keysOf a).Nodup →
    (keysOf (merge a b)).Nodup := by
  intro b
  induction b with
  | nil => intro a h; exact h
  | cons kv rest ih =>
    obtain ⟨bk, bv⟩ := kv
    intro a h
    exact ih (bump a bk bv) (nodup_bump a bk bv h)

/-- `merge` preserves the u32 bound on the accumulator's counters. -/
theorem values_merge : ∀ (b a : Tbl), (∀ kv ∈ a, kv.2 < 2 ^ 32) →
    ∀ kv ∈ merge a b, kv.2 < 2 ^ 32 := by
  intro b
  induction b with
  | nil => intro a h; exact h
  | cons kv rest ih =>
    obtain ⟨bk, bv⟩ := kv
    intro a h
    exact ih (bump a bk bv) (values_bump bk bv a h)

/-- The optional-count combine is commutative. -/
theorem mergeLookup_comm (x y : Option Nat) : mergeLookup x y = mergeLookup y x := by
  cases x <;> cases y <;> simp [mergeLookup, Nat.add_comm]

/-- The optional-count combine is associative. -/
theorem mergeLookup_assoc (x y z : Option Nat) :
    mergeLookup (mergeLookup x y) z = mergeLookup x (mergeLookup y z) := by
  cases x <;> cases y <;> cases z <;> simp [mergeLookup] <;> omega

/-- C4: over well-formed count tables (unique keys, u32 counters),
`merge(A, B)` maps every key to the u32 sum of its counts in A and B
(a key absent from one side contributes 0, a key absent from both is
absent), and `merge` is commutative and associative up to `HashMap`
equality (same keys, same counts), so any reduction tree over chunk
results produces the identical final table. -/
theorem merge_spec (A B : Tbl) (hA : WFTbl A) (hB : WFTbl B) :
    (∀ key, lookupTbl (merge A B) key =
      mergeLookup (lookupTbl A key) (lookupTbl B key)) ∧
    (∀ key, lookupTbl (merge A B) key = lookupTbl (merge B A) key) ∧
    ∀ C, WFTbl C → ∀ key,
      lookupTbl (merge (merge A B) C) key =
        lookupTbl (merge A (merge B C)) key := by
  obtain ⟨hAn, hAv⟩ := hA
  obtain ⟨hBn, hBv⟩ := hB
  refine ⟨fun key => lookup_merge B A hBn hBv key, fun key => ?_, fun C hC key => ?_⟩
  · rw [lookup_merge B A hBn hBv key, lookup_merge A B hAn hAv key, mergeLookup_comm]
  · obtain ⟨hCn, hCv⟩ := hC
    rw [lookup_merge C (merge A B) hCn hCv key,
      lookup_merge B A hBn hBv key,
      lookup_merge (merge B C) A (nodup_merge C B hBn) (values_merge C B hBv) key,
      lookup_merge C B hCn hCv key,
      mergeLookup_assoc]

/-- Witness for C4 on small concrete tables. -/
theorem merge_spec_witness :
    WFTbl [(0, 1)] ∧ WFTbl [(0, 2), (1, 3)] ∧
    ((∀ key, lookupTbl (merge [(0, 1)] [(0, 2), (1, 3)]) key =
        mergeLookup (lookupTbl [(0, 1)] key) (lookupTbl [(0, 2), (1, 3)] key)) ∧
      (∀ key, lookupTbl (merge [(0, 1)] [(0, 2), (1, 3)]) key =
        lookupTbl (merge [(0, 2), (1, 3)] [(0, 1)]) key) ∧
      ∀ C, WFTbl C → ∀ key,
        lookupTbl (merge (merge [(0, 1)] [(0, 2), (1, 3)]) C) key =
          lookupTbl (merge [(0, 1)] (merge [(0, 2), (1, 3)] C)) key) :=
  ⟨by decide, by decide, merge_spec _ _ (by decide) (by decide)⟩
